import Mathlib

/-!
Verification of the `swarm/util.py` module: a streaming-response delta
merger (`merge_fields` / `merge_chunk`), a docstring parser
(`parse_docstring`) and a function-to-schema converter
(`function_to_json`).

The Python values flowing through the merger are JSON-like: strings,
numbers, booleans, `None`, lists and string-keyed dicts.  They are
embedded as the inductive type `Val`; Python dicts become ordered
association lists (Python dicts preserve insertion order and have unique
keys), and in-place mutation becomes explicit state passing: a Python
procedure mutating a dict is a Lean function returning the new dict, and
a raised exception becomes `none` / `Except.error`.
-/

/-- A JSON-like Python value: the shapes handled by the merger. -/
inductive Val where
  | str (s : String)
  | num (n : Int)
  | bool (b : Bool)
  | null
  | list (xs : List Val)
  | dict (es : List (String × Val))

/-- Python `d[key]` read on a dict (association list, first match):
`none` models a `KeyError`. -/
def dGet {α : Type} : List (String × α) → String → Option α
  | [], _ => none
  | (k, v) :: rest, key => if k = key then some v else dGet rest key

/-- Python `d[key] = val` on a dict: overwrite the existing entry in
place (keeping its position), else append a new entry. -/
def dSet {α : Type} : List (String × α) → String → α → List (String × α)
  | [], key, val => [(key, val)]
  | (k, v) :: rest, key, val =>
      if k = key then (key, val) :: rest else (k, v) :: dSet rest key val

/-- Python `d.pop(key, default)` / successful `d.pop(key)`: the dict
with the entry for `key` removed (unchanged when absent). -/
def dRemove {α : Type} : List (String × α) → String → List (String × α)
  | [], _ => []
  | (k, v) :: rest, key => if k = key then rest else (k, v) :: dRemove rest key

/-- The keys of a dict, in order. -/
def dKeys {α : Type} (es : List (String × α)) : List String :=
  es.map Prod.fst

/-- Python `target += value` where `value` is a `str`: defined on a
string (concatenation) and on a list (extended by the string's
characters, each a one-character string); a `TypeError` (= `none`) on
every other value. -/
def iaddStr : Val → String → Option Val
  | .str s, v => some (.str (s ++ v))
  | .list xs, v => some (.list (xs ++ v.data.map fun c => .str (String.singleton c)))
  | _, _ => none

/-- Python truthiness of a `Val` (`if tool_calls ...`). -/
def truthy : Val → Bool
  | .str s => !s.isEmpty
  | .num n => n != 0
  | .bool b => b
  | .null => false
  | .list xs => !xs.isEmpty
  | .dict es => !es.isEmpty

/-- `merge_fields(target, source)` from `swarm/util.py`, with the
source dict's items listed explicitly.  For each `(key, value)` of the
source: a string value is appended onto `target[key]`; a (non-`None`)
dict value is merged recursively into `target[key]`; every other value
is skipped.  `none` models an uncaught exception (`KeyError` on a
missing key, `TypeError` on an unsupported `+=` or on indexing a
non-dict target). -/
def merge_fields : Val → List (String × Val) → Option Val
  | t, [] => some t
  | t, (key, Val.str s) :: rest =>
      match t with
      | .dict es =>
          match dGet es key with
          | some tv =>
              match iaddStr tv s with
              | some tv2 => merge_fields (.dict (dSet es key tv2)) rest
              | none => none
          | none => none
      | _ => none
  | t, (key, Val.dict sub) :: rest =>
      match t with
      | .dict es =>
          match dGet es key with
          | some tv =>
              match merge_fields tv sub with
              | some tv2 => merge_fields (.dict (dSet es key tv2)) rest
              | none => none
          | none => none
      | _ => none
  | t, (_, _) :: rest => merge_fields t rest

/-- Conversion of a popped `index` value to a Python list index:
integers are used directly and booleans count as `0` / `1` (`bool` is
an `int` subclass); anything else is a `TypeError`. -/
def toIndex : Val → Option Int
  | .num n => some n
  | .bool b => some (if b then 1 else 0)
  | _ => none

/-- Python `xs[i]` on a list: negative indices count from the end,
out-of-range is an `IndexError` (= `none`). -/
def listGetPy {α : Type} (xs : List α) (i : Int) : Option α :=
  let j : Int := if i < 0 then i + xs.length else i
  if j < 0 then none else xs[j.toNat]?

/-- Python `xs[i] = v` on a list (same index normalization). -/
def listSetPy {α : Type} (xs : List α) (i : Int) (v : α) : Option (List α) :=
  let j : Int := if i < 0 then i + xs.length else i
  if j < 0 ∨ (xs.length : Int) ≤ j then none else some (xs.set j.toNat v)

/-- Python `s[i]` on a string: a one-character string. -/
def strGetPy (s : String) (i : Int) : Option Char :=
  let cs := s.data
  let j : Int := if i < 0 then i + cs.length else i
  if j < 0 then none else cs[j.toNat]?

/-- `merge_chunk(final_response, delta)` from `swarm/util.py`.  The
Python procedure mutates both arguments (it pops `role` from the delta
and `index` from the delta's first tool call), so the embedding returns
the pair (new accumulator, new delta); `none` models an uncaught
exception.  Steps, as in the source: pop `role` from the delta, run the
generic `merge_fields`, then, when `delta.get("tool_calls")` is truthy
(with `len` defined on it), pop `index` from its first element — which
must be a dict for `.pop` to exist — and merge that element's remaining
fields into `final_response["tool_calls"][index]`.  A truthy non-list
`tool_calls` always errors (`len`/`[0]`/`.pop` fail); an accumulator
`tool_calls` that is a string still supports indexing (the extracted
one-character string is then merged into, which can only leave it
unchanged or error, strings being immutable). -/
def merge_chunk (final_response delta : List (String × Val)) :
    Option (List (String × Val) × List (String × Val)) :=
  let d1 := dRemove delta "role"
  match merge_fields (.dict final_response) d1 with
  | none => none
  | some (Val.dict acc1) =>
      match dGet d1 "tool_calls" with
      | none => some (acc1, d1)
      | some tc =>
          if truthy tc then
            match tc with
            | .list (Val.dict fe :: tl) =>
                match dGet fe "index" with
                | none => none
                | some idxv =>
                    let fe2 := dRemove fe "index"
                    let d2 := dSet d1 "tool_calls" (.list (.dict fe2 :: tl))
                    match toIndex idxv with
                    | none => none
                    | some i =>
                        match dGet acc1 "tool_calls" with
                        | none => none
                        | some (Val.list xs) =>
                            match listGetPy xs i with
                            | none => none
                            | some elem =>
                                match merge_fields elem fe2 with
                                | none => none
                                | some elem2 =>
                                    match listSetPy xs i elem2 with
                                    | none => none
                                    | some xs2 =>
                                        some (dSet acc1 "tool_calls" (.list xs2), d2)
                        | some (Val.str s) =>
                            match strGetPy s i with
                            | none => none
                            | some c =>
                                match merge_fields (.str (String.singleton c)) fe2 with
                                | none => none
                                | some _ => some (acc1, d2)
                        | some _ => none
            | _ => none
          else
            some (acc1, d1)
  | some _ => none

/-- Python `str.split(sep)` for a one-character separator, on the
character list: always at least one (possibly empty) piece. -/
def splitOnChar (c : Char) : List Char → List (List Char)
  | [] => [[]]
  | x :: xs =>
      let r := splitOnChar c xs
      if x = c then [] :: r
      else (x :: r.headD []) :: r.tail

/-- Python `docstring.split("\n")`. -/
def pySplitLines (s : String) : List String :=
  (splitOnChar (Char.ofNat 10) s.data).map String.mk

/-- Python `str.strip()`: drop whitespace from both ends. -/
def pyStrip (s : String) : String :=
  String.mk (((s.data.dropWhile Char.isWhitespace).reverse.dropWhile
    Char.isWhitespace).reverse)

/-- Python `str.lower()` on an ASCII-relevant alphabet. -/
def pyLowerChar (c : Char) : Char :=
  if 65 ≤ c.toNat ∧ c.toNat ≤ 90 then Char.ofNat (c.toNat + 32) else c

/-- Python `str.lower()`. -/
def pyLower (s : String) : String :=
  String.mk (s.data.map pyLowerChar)

/-- Does the first character list start with the second? -/
def startsWithChars : List Char → List Char → Bool
  | _, [] => true
  | [], _ :: _ => false
  | x :: xs, y :: ys => x == y && startsWithChars xs ys

/-- Python `s.startswith(pat)`. -/
def pyStartsWith (s pat : String) : Bool :=
  startsWithChars s.data pat.data

/-- Does `pat` occur somewhere in `s`? (Python `pat in s`.) -/
def containsChars (pat : List Char) : List Char → Bool
  | [] => startsWithChars [] pat
  | x :: xs => startsWithChars (x :: xs) pat || containsChars pat xs

/-- Python `pat in s` on strings. -/
def containsStr (s pat : String) : Bool :=
  containsChars pat.data s.data

/-- The scan state of `parse_docstring`: the description lines collected
so far, the argument-description dict, the current parameter (if any)
and the in-Args-section flag. -/
structure PState where
  description : List String
  arg_descriptions : List (String × String)
  current_param : Option String
  in_args_section : Bool
deriving DecidableEq

/-- First occurrence of a character in a character list: the pieces
before and after it, `none` when absent. -/
def breakAtChar (c : Char) : List Char → Option (List Char × List Char)
  | [] => none
  | x :: xs =>
      if x = c then some ([], xs)
      else
        match breakAtChar c xs with
        | some (pre, post) => some (x :: pre, post)
        | none => none

/-- Python `line.split(":", 1)` when `":" in line`: the text before the
first colon and everything after it; `none` when the line has no colon. -/
def splitFirstColon (line : String) : Option (String × String) :=
  match breakAtChar (Char.ofNat 58) line.data with
  | some (pre, post) => some (String.mk pre, String.mk post)
  | none => none

/-- Python `arg_descriptions[current_param] += suffix`: append to the
value of an existing key.  In every state reachable from the initial
one the key is present (a parameter becomes current only when its entry
is created); on the unreachable absent-key case the dict is returned
unchanged (Python would raise `KeyError` there). -/
def dAppendStr : List (String × String) → String → String → List (String × String)
  | [], _, _ => []
  | (k, v) :: rest, key, suffix =>
      if k = key then (k, v ++ suffix) :: rest else (k, v) :: dAppendStr rest key suffix

/-- One iteration of the line loop of `parse_docstring`: strip the
line; a line whose lowercased form starts with `"args:"` only sets the
in-Args flag (`continue`); outside the Args section the line joins the
description; inside it, a line with a colon starts a new parameter
entry (text before the first colon, stripped, mapped to the stripped
text after it), and otherwise a non-empty line extends the current
parameter's description when there is a truthy current parameter
(Python's `current_param and line`: the empty-named parameter is falsy). -/
def processLine (st : PState) (raw : String) : PState :=
  let line := pyStrip raw
  if pyStartsWith (pyLower line) "args:" then
    { st with in_args_section := true }
  else if ! st.in_args_section then
    { st with description := st.description ++ [line] }
  else
    match splitFirstColon line with
    | some (before, after) =>
        let current := pyStrip before
        { st with
            arg_descriptions := dSet st.arg_descriptions current (pyStrip after),
            current_param := some current }
    | none =>
        match st.current_param with
        | some p =>
            if p = "" then st
            else if line = "" then st
            else { st with arg_descriptions := dAppendStr st.arg_descriptions p (" " ++ line) }
        | none => st

/-- The initial state of the `parse_docstring` scan. -/
def initPState : PState :=
  { description := [], arg_descriptions := [], current_param := none,
    in_args_section := false }

/-- `parse_docstring(docstring)` from `swarm/util.py`: split on newlines,
fold the line loop, join the description lines with single spaces and
strip; the argument dict is returned only when the Args flag was set. -/
def parse_docstring (docstring : String) : String × List (String × String) :=
  let st := (pySplitLines docstring).foldl processLine initPState
  (pyStrip (String.intercalate " " st.description),
   if st.in_args_section then st.arg_descriptions else [])

/-- A resolved Python type annotation, as produced by
`get_type_hints`: one of the seven types in the converter's `type_map`,
`typing.Any`, or some other type known only by its `__name__`. -/
inductive PyType where
  | pystr
  | pyint
  | pyfloat
  | pybool
  | pylist
  | pydict
  | pynone
  | anyT
  | other (tyname : String)
deriving DecidableEq

/-- The `type_map` dict of `function_to_json`: lookup of a type object,
`none` when the type is not one of the seven keys. -/
def type_map : PyType → Option String
  | .pystr => some "string"
  | .pyint => some "integer"
  | .pyfloat => some "number"
  | .pybool => some "boolean"
  | .pylist => some "array"
  | .pydict => some "object"
  | .pynone => some "null"
  | _ => none

/-- Python `param_type.__name__` for a resolved annotation (for
`typing.Any` this is the string `"Any"`). -/
def pyTypeName : PyType → String
  | .pystr => "str"
  | .pyint => "int"
  | .pyfloat => "float"
  | .pybool => "bool"
  | .pylist => "list"
  | .pydict => "dict"
  | .pynone => "NoneType"
  | .anyT => "Any"
  | .other tyname => tyname

/-- The reflection-visible data of a Python callable, as consumed by
`function_to_json`: its `__name__`; the outcome of
`inspect.signature(func)` — the ordered parameters, each with its
has-a-default flag, or the message of the `ValueError` raised; the
docstring text (`inspect.getdoc(func) or ""`); and the outcome of
`get_type_hints(func)` — the resolved annotations of the annotated
parameters, or the message of the resolution error raised (e.g. the
`NameError` of an unresolvable forward reference). -/
structure PyFunc where
  name : String
  sig : Except String (List (String × Bool))
  doc : String
  hints : Except String (List (String × PyType))

/-- An exception escaping `function_to_json`. -/
inductive PyErr where
  | valueError (msg : String)
  | nameError (msg : String)
deriving DecidableEq

/-- One `properties` entry of the produced schema. -/
structure ParamInfo where
  type : String
  description : Option String
deriving DecidableEq

/-- The schema returned by `function_to_json`, flattened to its variable
parts; the full returned dict is
`{"type": "function", "function": {"name": name, "description":
description, "parameters": {"type": "object", "properties": properties,
"required": required}}}`. -/
structure FuncSchema where
  name : String
  description : String
  properties : List (String × ParamInfo)
  required : List String
deriving DecidableEq

/-- The per-parameter type string of the loop body of
`function_to_json`: `type_hints.get(param_name, Any)`, then
`type_map.get(param_type, param_type.__name__)`, then the `"Any"` →
`"string"` fallback.  None of these operations can raise, so the
`except KeyError` branch of the source is unreachable. -/
def paramTypeStr (hints : List (String × PyType)) (pname : String) : String :=
  let param_type := (dGet hints pname).getD PyType.anyT
  let s := (type_map param_type).getD (pyTypeName param_type)
  if s = "Any" then "string" else s

/-- One `properties` entry: the type string, plus the docstring
description when present (`if arg_descriptions and param_name in
arg_descriptions` — the truthiness test is redundant, a present key
makes the dict non-empty). -/
def mkParamInfo (argdesc : List (String × String)) (hints : List (String × PyType))
    (pname : String) : ParamInfo :=
  { type := paramTypeStr hints pname, description := dGet argdesc pname }

/-- `function_to_json(func)` from `swarm/util.py`.  A failing
`inspect.signature` raises a `ValueError` naming the callable and the
cause; then the docstring is parsed; a failing `get_type_hints` raises
its own error, which propagates unchanged (nothing catches it — the
`try` around the loop body catches only `KeyError`, which the body
never raises); then the loop fills `parameters` (dict assignment:
overwrite or append) and appends each defaultless parameter's name to
`required`. -/
def function_to_json (f : PyFunc) : Except PyErr FuncSchema :=
  match f.sig with
  | .error e =>
      .error (.valueError ("Failed to get signature for function " ++ f.name ++ ": " ++ e))
  | .ok params =>
      let pd := parse_docstring f.doc
      match f.hints with
      | .error e => .error (.nameError e)
      | .ok hints =>
          let st := params.foldl
            (fun (st : List (String × ParamInfo) × List String) p =>
              (dSet st.1 p.1 (mkParamInfo pd.2 hints p.1),
               st.2 ++ (if p.2 then [] else [p.1])))
            ([], [])
          .ok { name := f.name, description := pd.1,
                properties := st.1, required := st.2 }

/-- Is the value a Python `str`? (the first `isinstance` test of
`merge_fields`). -/
def isStrV : Val → Bool
  | .str _ => true
  | _ => false

/-- Is the value a Python `dict`? (the second `isinstance` test of
`merge_fields`). -/
def isDictV : Val → Bool
  | .dict _ => true
  | _ => false

/-- Pointwise lifting of a relation to lists of values, allowing the
right list to extend the left by extra elements that are all strings
(the only way the merger grows a list: `list += str`). -/
inductive PW (R : Val → Val → Prop) : List Val → List Val → Prop where
  | nil_ext (ys : List Val) (hys : ∀ v ∈ ys, ∃ s, v = Val.str s) : PW R [] ys
  | cons (v w : Val) (xs ys : List Val) (hvw : R v w) (ht : PW R xs ys) :
      PW R (v :: xs) (w :: ys)

/-- Pointwise lifting of a relation to dicts: same keys in the same
order, values pairwise related. -/
inductive PWD (R : Val → Val → Prop) :
    List (String × Val) → List (String × Val) → Prop where
  | nil : PWD R [] []
  | cons (k : String) (v w : Val) (es fs : List (String × Val))
      (hvw : R v w) (ht : PWD R es fs) : PWD R ((k, v) :: es) ((k, w) :: fs)

/-- The merger's frame relation: `KeysPreserved a b` holds when `b` is
obtainable from `a` without creating or deleting any dict entry at any
nesting level — every dict keeps exactly its keys (in order), strings
may change, scalars are unchanged, and lists may only be extended at
the end by string elements (which contain no mappings). -/
inductive KeysPreserved : Val → Val → Prop where
  | str (a b : String) : KeysPreserved (.str a) (.str b)
  | num (n : Int) : KeysPreserved (.num n) (.num n)
  | bool (b : Bool) : KeysPreserved (.bool b) (.bool b)
  | null : KeysPreserved .null .null
  | list (xs ys : List Val) (h : PW KeysPreserved xs ys) :
      KeysPreserved (.list xs) (.list ys)
  | dict (es fs : List (String × Val)) (h : PWD KeysPreserved es fs) :
      KeysPreserved (.dict es) (.dict fs)

theorem dGet_dSet_self {α : Type} (es : List (String × α)) (k : String) (v : α) :
    dGet (dSet es k v) k = some v := by
  induction es with
  | nil => simp [dGet, dSet]
  | cons p rest ih =>
      obtain ⟨k1, v1⟩ := p
      by_cases h : k1 = k
      · subst h
        simp [dGet, dSet]
      · simp [dGet, dSet, h, ih]

theorem dGet_dSet_ne {α : Type} (es : List (String × α)) (k key : String) (v : α)
    (h : k ≠ key) : dGet (dSet es key v) k = dGet es k := by
  induction es with
  | nil => simp [dGet, dSet, Ne.symm h]
  | cons p rest ih =>
      obtain ⟨k1, v1⟩ := p
      by_cases h1 : k1 = key
      · subst h1
        simp [dGet, dSet, Ne.symm h]
      · simp only [dSet, if_neg h1, dGet]
        by_cases h2 : k1 = k
        · simp [h2]
        · simp [h2, ih]

theorem dKeys_dSet_present {α : Type} (es : List (String × α)) (k : String) (v w : α)
    (h : dGet es k = some v) : dKeys (dSet es k w) = dKeys es := by
  induction es with
  | nil => simp [dGet] at h
  | cons p rest ih =>
      obtain ⟨k1, v1⟩ := p
      by_cases h1 : k1 = k
      · subst h1
        simp [dSet, dKeys]
      · simp only [dGet, if_neg h1] at h
        simp only [dSet, if_neg h1, dKeys, List.map_cons, List.cons.injEq, true_and]
        simpa [dKeys] using ih h

/-- C2: for the accumulator `{"content": "Hel", "tool_calls": [{"name":
""}]}` and the delta `{"content": "lo", "tool_calls": [{"index": 0,
"name": "add"}]}`, `merge_chunk` produces the accumulator `{"content":
"Hello", "tool_calls": [{"name": "add"}]}`: the string field is
appended, the first tool-call fragment's `index` field is consumed to
address position 0 of the accumulator's `tool_calls` list, and its
remaining fields are merged into that element.  (The second component
is the delta after the call, with `index` popped.) -/
theorem merge_chunk_stream_scenario :
    merge_chunk
      [("content", .str "Hel"), ("tool_calls", .list [.dict [("name", .str "")]])]
      [("content", .str "lo"),
       ("tool_calls", .list [.dict [("index", .num 0), ("name", .str "add")]])]
    = some
      ([("content", .str "Hello"), ("tool_calls", .list [.dict [("name", .str "add")]])],
       [("content", .str "lo"), ("tool_calls", .list [.dict [("name", .str "add")]])]) :=
  rfl

/-- C4 counterexample: the stripped, lowercased line `"args: blah"` is
not equal to `"args:"`, yet `parse_docstring`'s line loop treats it as
the Args-section marker (the code tests `startswith("args:")`, not
equality): the flag flips and the line is discarded. -/
theorem processLine_marker_counterexample :
    (processLine initPState "args: blah").in_args_section = true ∧
      pyLower (pyStrip "args: blah") ≠ "args:" := by
  exact ⟨rfl, by decide⟩

/-- C4 amended: a line flips the in-Args-section flag (and is itself
discarded from all output — the state changes in no other way) exactly
when its stripped, lowercased form STARTS WITH `"args:"`; equality is
not required, a marker line may carry further text.  Lines that do not
start with `"args:"` never change the flag. -/
theorem processLine_marker_flag (st : PState) (raw : String) :
    (pyStartsWith (pyLower (pyStrip raw)) "args:" = true →
        processLine st raw = { st with in_args_section := true }) ∧
    (pyStartsWith (pyLower (pyStrip raw)) "args:" = false →
        (processLine st raw).in_args_section = st.in_args_section) := by
  constructor
  · intro h
    simp [processLine, h]
  · intro h
    simp only [processLine, h, Bool.false_eq_true, if_false]
    split
    · rfl
    · split
      · rfl
      · split
        · split
          · rfl
          · split
            · rfl
            · rfl
        · rfl

/-- C4 amended, witness: the line `"Args:"` itself is a marker and only
flips the flag. -/
theorem processLine_marker_flag_witness :
    pyStartsWith (pyLower (pyStrip "Args:")) "args:" = true ∧
      processLine initPState "Args:" = { initPState with in_args_section := true } :=
  ⟨rfl, (processLine_marker_flag initPState "Args:").1 rfl⟩

/-- C5 counterexample: the docstring `"a\n\nb"` has no Args marker, and
its summary is `"a  b"` — the blank line contributes an empty entry
between two single-space joins, so a run of two consecutive spaces does
appear in the summary. -/
theorem parse_docstring_double_space_counterexample :
    parse_docstring "a\n\nb" = ("a  b", []) ∧ containsStr "a  b" "  " = true :=
  ⟨rfl, rfl⟩

theorem foldl_processLine_no_marker (lines : List String) (st : PState)
    (hst : st.in_args_section = false)
    (h : ∀ line ∈ lines, pyStartsWith (pyLower (pyStrip line)) "args:" = false) :
    lines.foldl processLine st
      = { st with description := st.description ++ lines.map pyStrip } := by
  induction lines generalizing st with
  | nil => simp
  | cons l ls ih =>
      have hl : pyStartsWith (pyLower (pyStrip l)) "args:" = false := h l (by simp)
      have hstep : processLine st l
          = { st with description := st.description ++ [pyStrip l] } := by
        simp [processLine, hl, hst]
      rw [List.foldl_cons, hstep,
        ih { st with description := st.description ++ [pyStrip l] } hst
          (fun line hline => h line (by simp [hline]))]
      simp

/-- C5 amended: for every docstring containing no Args-marker line, the
per-parameter mapping is empty and the summary is the stripped lines
joined by single spaces, with the result stripped.  (The claim's
further clause that no run of more than one consecutive space can
appear is false: a blank line contributes an empty entry between two
single-space joins, as the counterexample shows.) -/
theorem parse_docstring_no_marker (doc : String)
    (h : ∀ line ∈ pySplitLines doc, pyStartsWith (pyLower (pyStrip line)) "args:" = false) :
    parse_docstring doc
      = (pyStrip (String.intercalate " " ((pySplitLines doc).map pyStrip)), []) := by
  unfold parse_docstring
  rw [foldl_processLine_no_marker (pySplitLines doc) initPState rfl h]
  simp [initPState]

/-- C5 amended, witness: the two-line docstring `"a\nb"` has no marker
and yields summary `"a b"` and no parameters. -/
theorem parse_docstring_no_marker_witness :
    (∀ line ∈ pySplitLines "a\nb",
        pyStartsWith (pyLower (pyStrip line)) "args:" = false) ∧
      parse_docstring "a\nb" = ("a b", []) :=
  ⟨by decide, parse_docstring_no_marker "a\nb" (by decide)⟩

/-- Writing a character list between two others makes it a substring. -/
theorem startsWithChars_append (p ys : List Char) :
    startsWithChars (p ++ ys) p = true := by
  induction p with
  | nil => simp [startsWithChars]
  | cons c cs ih => simp [startsWithChars, ih]

theorem containsChars_append_left (l1 pat rest : List Char)
    (h : containsChars pat rest = true) : containsChars pat (l1 ++ rest) = true := by
  induction l1 with
  | nil => simpa using h
  | cons c cs ih =>
      simp only [List.cons_append, containsChars, Bool.or_eq_true]
      exact Or.inr ih

theorem containsChars_at_start (pat rest : List Char) :
    containsChars pat (pat ++ rest) = true := by
  cases pat with
  | nil => cases rest <;> simp [containsChars, startsWithChars]
  | cons c cs =>
      simp only [List.cons_append, containsChars, Bool.or_eq_true]
      exact Or.inl (startsWithChars_append (c :: cs) rest)

theorem containsStr_parts (s m : String) (l1 l2 : List Char)
    (h : s.data = l1 ++ (m.data ++ l2)) : containsStr s m = true := by
  unfold containsStr
  rw [h]
  exact containsChars_append_left l1 m.data (m.data ++ l2) (containsChars_at_start m.data l2)

theorem dKeys_dSet_absent {α : Type} (es : List (String × α)) (k : String) (v : α)
    (h : dGet es k = none) : dKeys (dSet es k v) = dKeys es ++ [k] := by
  induction es with
  | nil => simp [dSet, dKeys]
  | cons p rest ih =>
      obtain ⟨k1, v1⟩ := p
      by_cases h1 : k1 = k
      · simp [dGet, h1] at h
      · simp only [dGet, if_neg h1] at h
        have h2 := ih h
        simp only [dKeys] at h2
        simp [dSet, if_neg h1, dKeys, h2]

theorem foldl_step_split (ad : List (String × String)) (hints : List (String × PyType))
    (ps : List (String × Bool)) (a : List (String × ParamInfo)) (r : List String) :
    ps.foldl (fun st p => (dSet st.1 p.1 (mkParamInfo ad hints p.1),
        st.2 ++ (if p.2 then [] else [p.1]))) (a, r)
      = (ps.foldl (fun a2 p => dSet a2 p.1 (mkParamInfo ad hints p.1)) a,
         ps.foldl (fun r2 p => r2 ++ (if p.2 then [] else [p.1])) r) := by
  induction ps generalizing a r with
  | nil => rfl
  | cons p rest ih =>
      simp only [List.foldl_cons]
      exact ih _ _

theorem foldl_required (ps : List (String × Bool)) (r : List String) :
    ps.foldl (fun r2 p => r2 ++ (if p.2 then [] else [p.1])) r
      = r ++ (ps.filter (fun p => !p.2)).map Prod.fst := by
  induction ps generalizing r with
  | nil => simp
  | cons p rest ih =>
      simp only [List.foldl_cons, ih, List.filter_cons]
      by_cases h : p.2
      · simp [h]
      · simp [h]

theorem foldl_props_get (ad : List (String × String)) (hints : List (String × PyType))
    (ps : List (String × Bool)) (a : List (String × ParamInfo)) (k : String) :
    dGet (ps.foldl (fun a2 p => dSet a2 p.1 (mkParamInfo ad hints p.1)) a) k
      = if k ∈ ps.map Prod.fst then some (mkParamInfo ad hints k) else dGet a k := by
  induction ps generalizing a with
  | nil => simp
  | cons p rest ih =>
      simp only [List.foldl_cons, ih, List.map_cons, List.mem_cons]
      by_cases hk : k ∈ rest.map Prod.fst
      · simp [hk]
      · by_cases he : k = p.1
        · subst he
          simp [hk, dGet_dSet_self]
        · simp [hk, he, dGet_dSet_ne _ _ _ _ he]

theorem foldl_props_keys (ad : List (String × String)) (hints : List (String × PyType))
    (ps : List (String × Bool)) (a : List (String × ParamInfo))
    (hfresh : ∀ p ∈ ps, dGet a p.1 = none) (hnd : (ps.map Prod.fst).Nodup) :
    dKeys (ps.foldl (fun a2 p => dSet a2 p.1 (mkParamInfo ad hints p.1)) a)
      = dKeys a ++ ps.map Prod.fst := by
  induction ps generalizing a with
  | nil => simp
  | cons p rest ih =>
      simp only [List.map_cons, List.nodup_cons] at hnd
      simp only [List.foldl_cons]
      have h1 : dGet a p.1 = none := hfresh p (by simp)
      rw [ih (dSet a p.1 (mkParamInfo ad hints p.1)) ?fresh hnd.2,
        dKeys_dSet_absent a p.1 _ h1]
      · simp
      case fresh =>
          intro q hq
          have hne : q.1 ≠ p.1 := by
            intro hqe
            exact hnd.1 (hqe ▸ List.mem_map_of_mem Prod.fst hq)
          rw [dGet_dSet_ne _ _ _ _ hne]
          exact hfresh q (by simp [hq])

/-- C1: for every callable whose signature and type hints resolve (with
the Python-guaranteed distinct parameter names), `function_to_json`
produces a schema whose `required` list is exactly the names of the
parameters without a default value, in signature order, whose
`properties` keys are all N parameter names in signature order, and
every required name is a `properties` key. -/
theorem function_to_json_required_props (f : PyFunc) (params : List (String × Bool))
    (hs : List (String × PyType)) (hsig : f.sig = .ok params) (hh : f.hints = .ok hs)
    (hnd : (params.map Prod.fst).Nodup) :
    ∃ sch, function_to_json f = .ok sch ∧
      sch.required = (params.filter (fun p => !p.2)).map Prod.fst ∧
      dKeys sch.properties = params.map Prod.fst ∧
      ∀ k ∈ sch.required, k ∈ dKeys sch.properties := by
  have hfj : function_to_json f = .ok
      { name := f.name, description := (parse_docstring f.doc).1,
        properties := params.foldl
          (fun a2 p => dSet a2 p.1 (mkParamInfo (parse_docstring f.doc).2 hs p.1)) [],
        required := params.foldl (fun r2 p => r2 ++ (if p.2 then [] else [p.1])) [] } := by
    simp only [function_to_json, hsig, hh]
    rw [foldl_step_split]
  have hreq : (params.foldl (fun r2 p => r2 ++ (if p.2 then [] else [p.1]))
        ([] : List String))
      = (params.filter (fun p => !p.2)).map Prod.fst := by
    simpa using foldl_required params []
  have hkeys : dKeys (params.foldl
        (fun a2 p => dSet a2 p.1 (mkParamInfo (parse_docstring f.doc).2 hs p.1))
        ([] : List (String × ParamInfo)))
      = params.map Prod.fst := by
    simpa using foldl_props_keys (parse_docstring f.doc).2 hs params []
      (fun p hp => rfl) hnd
  refine ⟨_, hfj, hreq, hkeys, ?_⟩
  intro k hk
  have hk2 : k ∈ (params.filter (fun p => !p.2)).map Prod.fst := hreq ▸ hk
  rcases List.mem_map.mp hk2 with ⟨p, hp, rfl⟩
  have hmem : p.1 ∈ params.map Prod.fst :=
    List.mem_map_of_mem Prod.fst (List.mem_of_mem_filter hp)
  exact hkeys.symm ▸ hmem

/-- C1, witness: a two-parameter callable (second parameter defaulted)
has `required = ["a"]` and properties keys `["a", "b"]`. -/
theorem function_to_json_required_props_witness :
    (([("a", false), ("b", true)] : List (String × Bool)).map Prod.fst).Nodup ∧
    ∃ sch, function_to_json
        { name := "add", sig := .ok [("a", false), ("b", true)], doc := "",
          hints := .ok [("a", PyType.pyint)] } = .ok sch ∧
      sch.required = (([("a", false), ("b", true)] : List (String × Bool)).filter
          (fun p => !p.2)).map Prod.fst ∧
      dKeys sch.properties
        = ([("a", false), ("b", true)] : List (String × Bool)).map Prod.fst ∧
      ∀ k ∈ sch.required, k ∈ dKeys sch.properties :=
  ⟨by decide,
   function_to_json_required_props
     { name := "add", sig := .ok [("a", false), ("b", true)], doc := "",
       hints := .ok [("a", PyType.pyint)] }
     [("a", false), ("b", true)] [("a", PyType.pyint)] rfl rfl (by decide)⟩

/-- C8: a parameter with no type annotation (absent from the resolved
type hints) is assigned schema type `"string"`, and `function_to_json`
does not raise: the lookup default `Any` has `type_map` miss to
`__name__` = `"Any"`, which the final fallback maps to `"string"`. -/
theorem function_to_json_unannotated_string (f : PyFunc) (params : List (String × Bool))
    (hs : List (String × PyType)) (pname : String) (d : Bool)
    (hsig : f.sig = .ok params) (hh : f.hints = .ok hs)
    (hmem : (pname, d) ∈ params) (hun : dGet hs pname = none) :
    ∃ sch info, function_to_json f = .ok sch ∧
      dGet sch.properties pname = some info ∧ info.type = "string" := by
  have hfj : function_to_json f = .ok
      { name := f.name, description := (parse_docstring f.doc).1,
        properties := params.foldl
          (fun a2 p => dSet a2 p.1 (mkParamInfo (parse_docstring f.doc).2 hs p.1)) [],
        required := params.foldl (fun r2 p => r2 ++ (if p.2 then [] else [p.1])) [] } := by
    simp only [function_to_json, hsig, hh]
    rw [foldl_step_split]
  refine ⟨_, mkParamInfo (parse_docstring f.doc).2 hs pname, hfj, ?_, ?_⟩
  · have := foldl_props_get (parse_docstring f.doc).2 hs params [] pname
    rw [if_pos (List.mem_map_of_mem Prod.fst hmem)] at this
    exact this
  · simp [mkParamInfo, paramTypeStr, hun, type_map, pyTypeName]

/-- C8, witness: a single unannotated parameter `q` gets type
`"string"` and the conversion succeeds. -/
theorem function_to_json_unannotated_string_witness :
    (("q", false) ∈ ([("q", false)] : List (String × Bool))) ∧
    ∃ sch info, function_to_json
        { name := "g", sig := .ok [("q", false)], doc := "", hints := .ok [] }
        = .ok sch ∧
      dGet sch.properties "q" = some info ∧ info.type = "string" :=
  ⟨by decide,
   function_to_json_unannotated_string
     { name := "g", sig := .ok [("q", false)], doc := "", hints := .ok [] }
     [("q", false)] [] "q" false rfl rfl (by decide) rfl⟩

/-- C7: when the callable's signature cannot be introspected
(`inspect.signature` raises), `function_to_json` fails with the
`ValueError` built in the source, no schema is produced, and the
message contains both the callable's name and the underlying cause. -/
theorem function_to_json_signature_error (f : PyFunc) (e : String)
    (h : f.sig = .error e) :
    function_to_json f
        = .error (.valueError
            ("Failed to get signature for function " ++ f.name ++ ": " ++ e)) ∧
      containsStr ("Failed to get signature for function " ++ f.name ++ ": " ++ e)
        f.name = true ∧
      containsStr ("Failed to get signature for function " ++ f.name ++ ": " ++ e)
        e = true := by
  refine ⟨by simp [function_to_json, h], ?_, ?_⟩
  · exact containsStr_parts _ f.name ("Failed to get signature for function ").data
      ((": " ++ e).data) (by simp [String.data_append, List.append_assoc])
  · exact containsStr_parts _ e
      (("Failed to get signature for function " ++ f.name ++ ": ").data) []
      (by simp [String.data_append, List.append_assoc])

/-- C7, witness: a callable named `h` with failing introspection yields
the expected `ValueError` message containing both name and cause. -/
theorem function_to_json_signature_error_witness :
    function_to_json
        { name := "h", sig := .error "no sig", doc := "", hints := .ok [] }
        = .error (.valueError "Failed to get signature for function h: no sig") ∧
      containsStr "Failed to get signature for function h: no sig" "h" = true ∧
      containsStr "Failed to get signature for function h: no sig" "no sig" = true :=
  function_to_json_signature_error
    { name := "h", sig := .error "no sig", doc := "", hints := .ok [] } "no sig" rfl

/-- C6 counterexample: for a callable `myfunc` with parameter `p` whose
annotation fails to resolve (a `NameError` from an unresolvable forward
reference), `function_to_json` propagates the raw resolution error —
whose message names neither the parameter nor the callable.  (The
`except KeyError` handler that would add those names is unreachable:
nothing in its `try` block raises `KeyError`.) -/
theorem function_to_json_hints_error_counterexample :
    function_to_json
        { name := "myfunc", sig := .ok [("p", false)], doc := "",
          hints := .error "name 'Missing' is not defined" }
      = .error (.nameError "name 'Missing' is not defined") ∧
    containsStr "name 'Missing' is not defined" "myfunc" = false ∧
    containsStr "name 'Missing' is not defined" "p" = false :=
  ⟨rfl, rfl, rfl⟩

/-- C6 amended: when a parameter's annotation cannot be resolved,
`function_to_json` fails, but by propagating the underlying resolution
error unchanged (once the signature itself introspects): the error does
not in general name the offending parameter or the callable. -/
theorem function_to_json_hints_error (f : PyFunc) (params : List (String × Bool))
    (e : String) (hsig : f.sig = .ok params) (hh : f.hints = .error e) :
    function_to_json f = .error (.nameError e) := by
  simp [function_to_json, hsig, hh]

/-- C6 amended, witness. -/
theorem function_to_json_hints_error_witness :
    function_to_json
        { name := "k", sig := .ok [("p", false)], doc := "", hints := .error "boom" }
      = .error (.nameError "boom") :=
  function_to_json_hints_error
    { name := "k", sig := .ok [("p", false)], doc := "", hints := .error "boom" }
    [("p", false)] "boom" rfl rfl

theorem mem_key_eq_of_nodup {α : Type} (s : List (String × α)) (k : String) (v : α)
    (hnd : (dKeys s).Nodup) (hget : dGet s k = some v) :
    ∀ p ∈ s, p.1 = k → p.2 = v := by
  induction s with
  | nil => simp
  | cons q rest ih =>
      obtain ⟨q1, q2⟩ := q
      simp only [dKeys, List.map_cons, List.nodup_cons] at hnd
      intro p hp hpk
      rcases List.mem_cons.mp hp with heq | hmem
      · subst heq
        have hq1 : q1 = k := hpk
        rw [show dGet ((q1, q2) :: rest) k = some q2 from by simp [dGet, hq1]] at hget
        exact Option.some.inj hget
      · have hqk : ¬ q1 = k := by
          intro hq
          apply hnd.1
          have : p.1 ∈ List.map Prod.fst rest := List.mem_map_of_mem Prod.fst hmem
          rw [hpk] at this
          rw [hq]
          exact this
        rw [show dGet ((q1, q2) :: rest) k = dGet rest k from by simp [dGet, hqk]] at hget
        exact ih hnd.2 hget p hmem hpk

theorem merge_fields_untouched_key (s : List (String × Val)) :
    ∀ (es : List (String × Val)) (t2 : Val) (k : String),
      merge_fields (.dict es) s = some t2 →
      (∀ p ∈ s, p.1 = k → isStrV p.2 = false ∧ isDictV p.2 = false) →
      ∃ fs, t2 = .dict fs ∧ dGet fs k = dGet es k := by
  induction s with
  | nil =>
      intro es t2 k h _
      simp only [merge_fields, Option.some.injEq] at h
      exact ⟨es, h.symm, rfl⟩
  | cons p rest ih =>
      intro es t2 k h hk
      obtain ⟨key, v⟩ := p
      match v with
      | Val.str sv =>
          by_cases hke : key = k
          · have := hk (key, .str sv) (by simp) (by simpa using hke)
            simp [isStrV] at this
          · simp only [merge_fields] at h
            cases hget : dGet es key with
            | none => simp [hget] at h
            | some tv =>
                simp only [hget] at h
                cases hadd : iaddStr tv sv with
                | none => simp [hadd] at h
                | some tv2 =>
                    simp only [hadd] at h
                    obtain ⟨fs, rfl, hfs⟩ := ih (dSet es key tv2) t2 k h
                      (fun q hq hqk => hk q (by simp [hq]) hqk)
                    exact ⟨fs, rfl, hfs.trans (dGet_dSet_ne es k key tv2 (Ne.symm hke))⟩
      | Val.dict sub =>
          by_cases hke : key = k
          · have := hk (key, .dict sub) (by simp) (by simpa using hke)
            simp [isDictV] at this
          · simp only [merge_fields] at h
            cases hget : dGet es key with
            | none => simp [hget] at h
            | some tv =>
                simp only [hget] at h
                cases hsub : merge_fields tv sub with
                | none => simp [hsub] at h
                | some tv2 =>
                    simp only [hsub] at h
                    obtain ⟨fs, rfl, hfs⟩ := ih (dSet es key tv2) t2 k h
                      (fun q hq hqk => hk q (by simp [hq]) hqk)
                    exact ⟨fs, rfl, hfs.trans (dGet_dSet_ne es k key tv2 (Ne.symm hke))⟩
      | Val.num n =>
          exact ih es t2 k h (fun q hq hqk => hk q (by simp [hq]) hqk)
      | Val.bool b =>
          exact ih es t2 k h (fun q hq hqk => hk q (by simp [hq]) hqk)
      | Val.null =>
          exact ih es t2 k h (fun q hq hqk => hk q (by simp [hq]) hqk)
      | Val.list xs =>
          exact ih es t2 k h (fun q hq hqk => hk q (by simp [hq]) hqk)

/-- C9: the generic merge path never modifies an accumulator value
whose delta value is neither a string nor a dict: for every successful
`merge_fields` run whose (unique-keyed) source maps `k` to a number,
boolean, `None` or list, the target's value at `k` is unchanged. -/
theorem merge_fields_non_string_untouched (es s : List (String × Val)) (t2 : Val) (k : String) (v : Val)
    (h : merge_fields (.dict es) s = some t2)
    (hnd : (dKeys s).Nodup)
    (hget : dGet s k = some v)
    (hstr : isStrV v = false) (hdict : isDictV v = false) :
    ∃ fs, t2 = .dict fs ∧ dGet fs k = dGet es k := by
  apply merge_fields_untouched_key s es t2 k h
  intro p hp hpk
  rw [mem_key_eq_of_nodup s k v hnd hget p hp hpk]
  exact ⟨hstr, hdict⟩

/-- C9, witness: a numeric delta field is skipped while a string field
of the same dict is appended. -/
theorem merge_fields_non_string_untouched_witness :
    merge_fields (.dict [("n", .num 1), ("t", .str "")])
        [("n", .num 5), ("t", .str "x")]
      = some (.dict [("n", .num 1), ("t", .str "x")]) ∧
    (dKeys ([("n", Val.num 5), ("t", Val.str "x")] : List (String × Val))).Nodup ∧
    ∃ fs, (Val.dict [("n", Val.num 1), ("t", Val.str "x")]) = .dict fs ∧
      dGet fs "n" = dGet [("n", Val.num 1), ("t", Val.str "")] "n" :=
  ⟨rfl, by decide,
   merge_fields_non_string_untouched
     [("n", .num 1), ("t", .str "")] [("n", .num 5), ("t", .str "x")]
     (.dict [("n", .num 1), ("t", .str "x")]) "n" (.num 5)
     rfl (by decide) rfl rfl rfl⟩

theorem kp_refl : ∀ v : Val, KeysPreserved v v := by
  have H : ∀ n : Nat, ∀ v : Val, sizeOf v ≤ n → KeysPreserved v v := by
    intro n
    induction n using Nat.strong_induction_on with
    | _ n ih =>
      intro v hv
      cases v with
      | str s => exact .str s s
      | num k => exact .num k
      | bool b => exact .bool b
      | null => exact .null
      | list xs =>
          refine .list xs xs ?_
          have hlist : ∀ ys : List Val, sizeOf ys ≤ sizeOf xs → PW KeysPreserved ys ys := by
            intro ys
            induction ys with
            | nil => intro _; exact .nil_ext [] (by simp)
            | cons y yt ihy =>
                intro hsz
                simp only [List.cons.sizeOf_spec] at hsz
                refine .cons y y yt yt ?_ (ihy (by omega))
                apply ih (sizeOf y) ?_ y le_rfl
                simp only [Val.list.sizeOf_spec] at hv
                omega
          exact hlist xs le_rfl
      | dict es =>
          refine .dict es es ?_
          have hd : ∀ fs : List (String × Val), sizeOf fs ≤ sizeOf es → PWD KeysPreserved fs fs := by
            intro fs
            induction fs with
            | nil => intro _; exact .nil
            | cons q qt ihq =>
                intro hsz
                obtain ⟨k1, v1⟩ := q
                simp only [List.cons.sizeOf_spec, Prod.mk.sizeOf_spec] at hsz
                refine .cons k1 v1 v1 qt qt ?_ (ihq (by omega))
                apply ih (sizeOf v1) ?_ v1 le_rfl
                simp only [Val.dict.sizeOf_spec] at hv
                omega
          exact hd es le_rfl
  intro v
  exact H (sizeOf v) v le_rfl

theorem pw_refl (xs : List Val) : PW KeysPreserved xs xs := by
  induction xs with
  | nil => exact .nil_ext [] (by simp)
  | cons x xt ih => exact .cons x x xt xt (kp_refl x) ih

theorem pwd_refl (es : List (String × Val)) : PWD KeysPreserved es es := by
  induction es with
  | nil => exact .nil
  | cons q qt ih =>
      obtain ⟨k1, v1⟩ := q
      exact .cons k1 v1 v1 qt qt (kp_refl v1) ih

theorem kp_str_shape (s : String) (w : Val) (h : KeysPreserved (.str s) w) :
    ∃ b, w = Val.str b := by
  cases h with
  | str a b => exact ⟨b, rfl⟩

theorem pw_allstr (ys zs : List Val) (h : PW KeysPreserved ys zs)
    (hys : ∀ v ∈ ys, ∃ s, v = Val.str s) : ∀ v ∈ zs, ∃ s, v = Val.str s := by
  induction h with
  | nil_ext zs2 hz => exact hz
  | cons y w yt wt hyw ht ihh =>
      intro v hv
      rcases List.mem_cons.mp hv with rfl | hmem
      · obtain ⟨sy, rfl⟩ := hys y (by simp)
        exact kp_str_shape sy v hyw
      · exact ihh (fun u hu => hys u (by simp [hu])) v hmem

theorem pw_trans_aux (xs ys zs : List Val) (h1 : PW KeysPreserved xs ys)
    (h2 : PW KeysPreserved ys zs)
    (htr : ∀ x ∈ xs, ∀ b c, KeysPreserved x b → KeysPreserved b c → KeysPreserved x c) :
    PW KeysPreserved xs zs := by
  induction h1 generalizing zs with
  | nil_ext ys2 hys => exact .nil_ext zs (pw_allstr ys2 zs h2 hys)
  | cons x y xt yt hxy ht ihh =>
      cases h2 with
      | cons _ z _ zt hyz ht2 =>
          exact .cons x z xt zt (htr x (by simp) y z hxy hyz)
            (ihh zt ht2 (fun u hu => htr u (by simp [hu])))

theorem pwd_trans_aux (es fs gs : List (String × Val)) (h1 : PWD KeysPreserved es fs)
    (h2 : PWD KeysPreserved fs gs)
    (htr : ∀ p ∈ es, ∀ b c, KeysPreserved p.2 b → KeysPreserved b c → KeysPreserved p.2 c) :
    PWD KeysPreserved es gs := by
  induction h1 generalizing gs with
  | nil => exact h2
  | cons k v w et ft hvw ht ihh =>
      cases h2 with
      | cons _ _ w2 _ gt hwz ht2 =>
          exact .cons k v w2 et gt (htr (k, v) (by simp) w w2 hvw hwz)
            (ihh gt ht2 (fun u hu => htr u (by simp [hu])))

theorem kp_trans : ∀ a b c : Val,
    KeysPreserved a b → KeysPreserved b c → KeysPreserved a c := by
  have H : ∀ n : Nat, ∀ a : Val, sizeOf a ≤ n → ∀ b c : Val,
      KeysPreserved a b → KeysPreserved b c → KeysPreserved a c := by
    intro n
    induction n using Nat.strong_induction_on with
    | _ n ih =>
      intro a ha b c h1 h2
      cases h1 with
      | str x y =>
          obtain ⟨z, rfl⟩ := kp_str_shape y c h2
          exact .str x z
      | num k => exact h2
      | bool b1 => exact h2
      | null => exact h2
      | list xs ys hpw =>
          cases h2 with
          | list _ zs hpw2 =>
              refine .list xs zs (pw_trans_aux xs ys zs hpw hpw2 ?_)
              intro x hx b2 c2 hxb hbc
              have hsz : sizeOf x < sizeOf (Val.list xs) := by
                have := List.sizeOf_lt_of_mem hx
                simp only [Val.list.sizeOf_spec]
                omega
              exact ih (sizeOf x) (by omega) x le_rfl b2 c2 hxb hbc
      | dict es fs hpwd =>
          cases h2 with
          | dict _ gs hpwd2 =>
              refine .dict es gs (pwd_trans_aux es fs gs hpwd hpwd2 ?_)
              intro p hp b2 c2 hxb hbc
              have hsz : sizeOf p.2 < sizeOf (Val.dict es) := by
                have h3 := List.sizeOf_lt_of_mem hp
                have h4 : sizeOf p.2 < sizeOf p := by
                  obtain ⟨p1, p2⟩ := p
                  simp only [Prod.mk.sizeOf_spec]
                  omega
                simp only [Val.dict.sizeOf_spec]
                omega
              exact ih (sizeOf p.2) (by omega) p.2 le_rfl b2 c2 hxb hbc
  intro a b c h1 h2
  exact H (sizeOf a) a le_rfl b c h1 h2

theorem iaddStr_kp (tv : Val) (s : String) (tv2 : Val) (h : iaddStr tv s = some tv2) :
    KeysPreserved tv tv2 := by
  cases tv with
  | str a =>
      simp only [iaddStr, Option.some.injEq] at h
      subst h
      exact .str a (a ++ s)
  | list xs =>
      simp only [iaddStr, Option.some.injEq] at h
      subst h
      refine .list xs _ ?_
      have hall : ∀ v ∈ s.data.map (fun c => Val.str (String.singleton c)),
          ∃ b, v = Val.str b := by
        intro v hv
        rcases List.mem_map.mp hv with ⟨c, _, rfl⟩
        exact ⟨String.singleton c, rfl⟩
      induction xs with
      | nil => exact .nil_ext _ hall
      | cons x xt ih => exact .cons x x _ _ (kp_refl x) ih
  | num n => simp [iaddStr] at h
  | bool b => simp [iaddStr] at h
  | null => simp [iaddStr] at h
  | dict es => simp [iaddStr] at h

theorem pwd_dSet (es : List (String × Val)) (k : String) (tv tv2 : Val)
    (hget : dGet es k = some tv) (hkp : KeysPreserved tv tv2) :
    PWD KeysPreserved es (dSet es k tv2) := by
  induction es with
  | nil => simp [dGet] at hget
  | cons p rest ih =>
      obtain ⟨k1, v1⟩ := p
      by_cases h1 : k1 = k
      · subst h1
        simp only [dGet, eq_self_iff_true, if_true, Option.some.injEq] at hget
        subst hget
        simp only [dSet, eq_self_iff_true, if_true]
        exact .cons _ _ _ _ _ hkp (pwd_refl rest)
      · simp only [dGet, if_neg h1] at hget
        simp only [dSet, if_neg h1]
        exact .cons k1 v1 v1 _ _ (kp_refl v1) (ih hget)

theorem pw_set (xs : List Val) (jn : Nat) (elem elem2 : Val)
    (hjn : xs[jn]? = some elem) (hkp : KeysPreserved elem elem2) :
    PW KeysPreserved xs (xs.set jn elem2) := by
  induction xs generalizing jn with
  | nil => simp at hjn
  | cons x xt ih =>
      cases jn with
      | zero =>
          simp only [List.getElem?_cons_zero, Option.some.injEq] at hjn
          subst hjn
          simp only [List.set_cons_zero]
          exact .cons x elem2 xt xt hkp (pw_refl xt)
      | succ j =>
          simp only [List.getElem?_cons_succ] at hjn
          simp only [List.set_cons_succ]
          exact .cons x x xt (xt.set j elem2) (kp_refl x) (ih j hjn)

theorem merge_fields_kp (t : Val) (s : List (String × Val)) :
    ∀ t2 : Val, merge_fields t s = some t2 → KeysPreserved t t2 := by
  induction t, s using merge_fields.induct with
  | case1 t =>
      intro t2 h
      simp only [merge_fields, Option.some.injEq] at h
      subst h
      exact kp_refl t
  | case2 key sv rest es tv hget tv2 hadd ih =>
      intro t2 h
      simp only [merge_fields, hget, hadd] at h
      exact kp_trans _ _ _
        (.dict es _ (pwd_dSet es key tv tv2 hget (iaddStr_kp tv sv tv2 hadd)))
        (ih t2 h)
  | case3 key sv rest es tv hget hadd =>
      intro t2 h
      simp [merge_fields, hget, hadd] at h
  | case4 key sv rest es hget =>
      intro t2 h
      simp [merge_fields, hget] at h
  | case5 t key sv rest hnd =>
      intro t2 h
      cases t with
      | dict es => exact absurd rfl (hnd es)
      | str a => simp [merge_fields] at h
      | num n => simp [merge_fields] at h
      | bool b => simp [merge_fields] at h
      | null => simp [merge_fields] at h
      | list xs => simp [merge_fields] at h
  | case6 key sub rest es tv hget tv2 hsub ih1 ih2 =>
      intro t2 h
      simp only [merge_fields, hget, hsub] at h
      exact kp_trans _ _ _
        (.dict es _ (pwd_dSet es key tv tv2 hget (ih1 tv2 hsub)))
        (ih2 t2 h)
  | case7 key sub rest es tv hget hsub ih1 =>
      intro t2 h
      simp [merge_fields, hget, hsub] at h
  | case8 key sub rest es hget =>
      intro t2 h
      simp [merge_fields, hget] at h
  | case9 t key sub rest hnd =>
      intro t2 h
      cases t with
      | dict es => exact absurd rfl (hnd es)
      | str a => simp [merge_fields] at h
      | num n => simp [merge_fields] at h
      | bool b => simp [merge_fields] at h
      | null => simp [merge_fields] at h
      | list xs => simp [merge_fields] at h
  | case10 t fst snd rest hns hnd ih =>
      intro t2 h
      cases snd with
      | str a => exact absurd rfl (hns a)
      | dict es => exact absurd rfl (hnd es)
      | num n => exact ih t2 h
      | bool b => exact ih t2 h
      | null => exact ih t2 h
      | list xs => exact ih t2 h

theorem listGetPy_toNat {α : Type} (xs : List α) (i : Int) (v : α)
    (h : listGetPy xs i = some v) :
    ∃ jn : Nat, xs[jn]? = some v ∧
      ∀ (w : α) (ys : List α), listSetPy xs i w = some ys → ys = xs.set jn w := by
  simp only [listGetPy] at h
  by_cases hneg : (if i < 0 then i + (xs.length : Int) else i) < 0
  · rw [if_pos hneg] at h
    exact Option.noConfusion h
  · rw [if_neg hneg] at h
    refine ⟨(if i < 0 then i + (xs.length : Int) else i).toNat, h, ?_⟩
    intro w ys hset
    simp only [listSetPy] at hset
    by_cases hrange : (if i < 0 then i + (xs.length : Int) else i) < 0 ∨
        (xs.length : Int) ≤ (if i < 0 then i + (xs.length : Int) else i)
    · rw [if_pos hrange] at hset
      exact Option.noConfusion hset
    · rw [if_neg hrange] at hset
      exact (Option.some.inj hset).symm

theorem merge_chunk_cases (acc δ : List (String × Val))
    (out : List (String × Val) × List (String × Val))
    (h : merge_chunk acc δ = some out) :
    ∃ acc1, merge_fields (.dict acc) (dRemove δ "role") = some (.dict acc1) ∧
      ((out.1 = acc1 ∧ out.2 = dRemove δ "role") ∨
       (∃ fe tl xs jn elem elem2,
          dGet (dRemove δ "role") "tool_calls" = some (.list (.dict fe :: tl)) ∧
          dGet acc1 "tool_calls" = some (.list xs) ∧
          xs[jn]? = some elem ∧
          merge_fields elem (dRemove fe "index") = some elem2 ∧
          out.1 = dSet acc1 "tool_calls" (.list (xs.set jn elem2)) ∧
          out.2 = dSet (dRemove δ "role") "tool_calls"
            (.list (.dict (dRemove fe "index") :: tl))) ∨
       (∃ fe tl,
          dGet (dRemove δ "role") "tool_calls" = some (.list (.dict fe :: tl)) ∧
          out.1 = acc1 ∧
          out.2 = dSet (dRemove δ "role") "tool_calls"
            (.list (.dict (dRemove fe "index") :: tl)))) := by
  simp only [merge_chunk] at h
  split at h
  · exact Option.noConfusion h
  · rename_i acc1 hmf
    split at h
    · injection h with h2
      subst h2
      exact ⟨acc1, hmf, Or.inl ⟨rfl, rfl⟩⟩
    · rename_i tc hdg
      split at h
      · split at h
        · rename_i fe tl htr
          split at h
          · exact Option.noConfusion h
          · rename_i idxv hidx
            split at h
            · exact Option.noConfusion h
            · rename_i i hti
              split at h
              · exact Option.noConfusion h
              · rename_i xs hacc
                split at h
                · exact Option.noConfusion h
                · rename_i elem hlg
                  split at h
                  · exact Option.noConfusion h
                  · rename_i elem2 hme
                    split at h
                    · exact Option.noConfusion h
                    · rename_i xs2 hls
                      injection h with h2
                      subst h2
                      obtain ⟨jn, hjn, hset⟩ := listGetPy_toNat xs i elem hlg
                      have hxs2 := hset elem2 xs2 hls
                      subst hxs2
                      exact ⟨acc1, hmf, Or.inr (Or.inl
                        ⟨fe, tl, xs, jn, elem, elem2, hdg, hacc, hjn, hme, rfl, rfl⟩)⟩
              · rename_i sstr hacc
                split at h
                · exact Option.noConfusion h
                · rename_i c hsg
                  split at h
                  · exact Option.noConfusion h
                  · rename_i r hms
                    injection h with h2
                    subst h2
                    exact ⟨acc1, hmf, Or.inr (Or.inr ⟨fe, tl, hdg, rfl, rfl⟩)⟩
              · exact Option.noConfusion h
        · exact Option.noConfusion h
      · injection h with h2
        subst h2
        exact ⟨acc1, hmf, Or.inl ⟨rfl, rfl⟩⟩
  · exact Option.noConfusion h

theorem pwd_keys (es fs : List (String × Val)) (h : PWD KeysPreserved es fs) :
    dKeys fs = dKeys es := by
  induction h with
  | nil => rfl
  | cons k v w et ft hvw ht ih =>
      simp only [dKeys, List.map_cons, List.cons.injEq, true_and]
      simpa [dKeys] using ih

/-- C3 amended: `merge_chunk` mutates its accumulator and, in the
delta, only the transient fields: after a successful call the delta
equals the original with its top-level `role` entry removed and — when
the tool-call branch ran — with the `index` entry removed from its
first tool call (the rest of the `tool_calls` list and all other
entries unchanged). -/
theorem merge_chunk_delta_fields (acc δ : List (String × Val))
    (out : List (String × Val) × List (String × Val))
    (h : merge_chunk acc δ = some out) :
    out.2 = dRemove δ "role" ∨
      ∃ fe tl, dGet (dRemove δ "role") "tool_calls" = some (.list (.dict fe :: tl)) ∧
        out.2 = dSet (dRemove δ "role") "tool_calls"
          (.list (.dict (dRemove fe "index") :: tl)) := by
  obtain ⟨acc1, hmf, hcase⟩ := merge_chunk_cases acc δ out h
  rcases hcase with ⟨h1, h2⟩ | ⟨fe, tl, xs, jn, elem, elem2, hdg, _, _, _, _, h6⟩ |
    ⟨fe, tl, hdg, _, h3⟩
  · exact Or.inl h2
  · exact Or.inr ⟨fe, tl, hdg, h6⟩
  · exact Or.inr ⟨fe, tl, hdg, h3⟩

/-- C3 counterexample: `merge_chunk` does not leave the delta
unchanged: on accumulator `{"a": ""}` and delta `{"role": "assistant",
"a": "x"}` the call succeeds and the delta afterwards is `{"a": "x"}`,
not the original — the `role` entry was popped from the delta in
place. -/
theorem merge_chunk_mutates_delta_counterexample :
    merge_chunk [("a", .str "")] [("role", .str "assistant"), ("a", .str "x")]
      = some ([("a", .str "x")], [("a", .str "x")]) ∧
    ([("a", Val.str "x")] : List (String × Val))
      ≠ [("role", .str "assistant"), ("a", .str "x")] := by
  constructor
  · rfl
  · simp

/-- C10: a `merge_chunk` call that completes without error never adds
a key to the accumulator at any nesting level: the new accumulator is
related to the old by `PWD KeysPreserved` — every dict at every
nesting level (including each tool-call element) keeps exactly its key
list, and lists grow only by string elements, which contain no
mappings; in particular the top-level key list is unchanged. -/
theorem merge_chunk_no_new_keys (acc δ : List (String × Val))
    (out : List (String × Val) × List (String × Val))
    (h : merge_chunk acc δ = some out) :
    PWD KeysPreserved acc out.1 ∧ dKeys out.1 = dKeys acc := by
  obtain ⟨acc1, hmf, hcase⟩ := merge_chunk_cases acc δ out h
  have hkp1 : PWD KeysPreserved acc acc1 := by
    have hkd := merge_fields_kp (.dict acc) (dRemove δ "role") (.dict acc1) hmf
    cases hkd with
    | dict _ _ hpwd => exact hpwd
  have hmain : PWD KeysPreserved acc out.1 := by
    rcases hcase with ⟨h1, _⟩ | ⟨fe, tl, xs, jn, elem, elem2, hdg, hacc, hjn, hme, h5, _⟩ |
      ⟨fe, tl, hdg, h2, _⟩
    · rw [h1]
      exact hkp1
    · rw [h5]
      have hke : KeysPreserved elem elem2 :=
        merge_fields_kp elem (dRemove fe "index") elem2 hme
      have hlkp : KeysPreserved (Val.list xs) (Val.list (xs.set jn elem2)) :=
        .list _ _ (pw_set xs jn elem elem2 hjn hke)
      have hpwd2 : PWD KeysPreserved acc1
          (dSet acc1 "tool_calls" (.list (xs.set jn elem2))) :=
        pwd_dSet acc1 "tool_calls" (.list xs) (.list (xs.set jn elem2)) hacc hlkp
      exact pwd_trans_aux acc acc1 _ hkp1 hpwd2
        (fun p hp b c hab hbc => kp_trans p.2 b c hab hbc)
    · rw [h2]
      exact hkp1
  exact ⟨hmain, pwd_keys acc out.1 hmain⟩

/-- C3 amended, witness: a delta with a `role` entry is returned with
that entry removed and nothing else changed. -/
theorem merge_chunk_delta_fields_witness :
    (([("b", Val.str "x")], [("b", Val.str "x")]) :
        List (String × Val) × List (String × Val)).2
        = dRemove [("role", Val.str "assistant"), ("b", Val.str "x")] "role" ∨
      ∃ fe tl,
        dGet (dRemove [("role", Val.str "assistant"), ("b", Val.str "x")] "role")
            "tool_calls" = some (.list (.dict fe :: tl)) ∧
        (([("b", Val.str "x")], [("b", Val.str "x")]) :
            List (String × Val) × List (String × Val)).2
          = dSet (dRemove [("role", Val.str "assistant"), ("b", Val.str "x")] "role")
              "tool_calls" (.list (.dict (dRemove fe "index") :: tl)) :=
  merge_chunk_delta_fields [("b", .str "")]
    [("role", .str "assistant"), ("b", .str "x")]
    ([("b", .str "x")], [("b", .str "x")]) rfl

/-- C10, witness: merging a string delta into a one-key accumulator
preserves its key list. -/
theorem merge_chunk_no_new_keys_witness :
    PWD KeysPreserved [("x", Val.str "")]
        (([("x", Val.str "hi")], [("x", Val.str "hi")]) :
          List (String × Val) × List (String × Val)).1 ∧
      dKeys (([("x", Val.str "hi")], [("x", Val.str "hi")]) :
          List (String × Val) × List (String × Val)).1
        = dKeys [("x", Val.str "")] :=
  merge_chunk_no_new_keys [("x", .str "")] [("x", .str "hi")]
    ([("x", .str "hi")], [("x", .str "hi")]) rfl
